import Mathlib

/-!
Verification development for the libdragon RDP command-queue subsystem.

The repository sources provide the public interface of the rasterizer layer
in src/include/rdp.h (register map, status bits, sync taxonomy, the
attach/detach API and the rdp_can_attach macro).  The implementation of the
asynchronous command queue (ring buffers, block recorder, sync points,
high-priority channel, attachment tracker) is described by the repository
specification; where a definition below models behaviour whose C source is
not present in the repository snapshot, its doc comment says so explicitly.
-/

namespace LibdragonRdp

/-! ## DP register status bits (from src/include/rdp.h, lines 43 to 74) -/

/-- From rdp.h: DP is using DMEM DMA. -/
def DP_STATUS_DMEM_DMA : Nat := 1 <<< 0
/-- From rdp.h: DP is frozen. -/
def DP_STATUS_FREEZE : Nat := 1 <<< 1
/-- From rdp.h: DP is flushed. -/
def DP_STATUS_FLUSH : Nat := 1 <<< 2
/-- From rdp.h: DP GCLK is alive. -/
def DP_STATUS_GCLK_ALIVE : Nat := 1 <<< 3
/-- From rdp.h: DP TMEM is busy. -/
def DP_STATUS_TMEM_BUSY : Nat := 1 <<< 4
/-- From rdp.h: DP pipeline is busy. -/
def DP_STATUS_PIPE_BUSY : Nat := 1 <<< 5
/-- From rdp.h: DP command unit is busy. -/
def DP_STATUS_BUSY : Nat := 1 <<< 6
/-- From rdp.h: DP command buffer is ready. -/
def DP_STATUS_BUFFER_READY : Nat := 1 <<< 7
/-- From rdp.h: DP DMA is busy. -/
def DP_STATUS_DMA_BUSY : Nat := 1 <<< 8
/-- From rdp.h: DP command end register is valid. -/
def DP_STATUS_END_VALID : Nat := 1 <<< 9
/-- From rdp.h: DP command start register is valid. -/
def DP_STATUS_START_VALID : Nat := 1 <<< 10

/-- The write-only DP status register bit assignment, exactly the
DP_WSTATUS_* constants of rdp.h lines 65 to 74, as (name, bit) pairs.
The name is the suffix after the DP_WSTATUS_ prefix of each constant. -/
def DP_WSTATUS_FIELDS : List (String × Nat) :=
  [("RESET_XBUS_DMEM_DMA", 1 <<< 0),
   ("SET_XBUS_DMEM_DMA",   1 <<< 1),
   ("RESET_FREEZE",        1 <<< 2),
   ("SET_FREEZE",          1 <<< 3),
   ("RESET_FLUSH",         1 <<< 4),
   ("SET_FLUSH",           1 <<< 5),
   ("RESET_TMEM_COUNTER",  1 <<< 6),
   ("RESET_PIPE_COUNTER",  1 <<< 7),
   ("RESET_CMD_COUNTER",   1 <<< 8),
   ("RESET_CLOCK_COUNTER", 1 <<< 9)]

/-- The bit assigned by the write-only status register to a named control
action, when rdp.h declares such a constant. -/
def wstatusBit (name : String) : Option Nat :=
  DP_WSTATUS_FIELDS.lookup name

/-- A control has a set/clear bit pair when the write-only status register
declares both a SET_ and a RESET_ bit for it. -/
def hasSetClearPair (ctrl : String) : Bool :=
  (wstatusBit ("RESET_" ++ ctrl)).isSome && (wstatusBit ("SET_" ++ ctrl)).isSome

/-! ## Sync taxonomy (from src/include/rdp.h, lines 442 to 448) -/

/-- The sync_t enumeration of rdp.h: the four synchronization primitives the
rasterizer layer exposes. -/
inductive sync_t
  | SYNC_FULL
  | SYNC_PIPE
  | SYNC_LOAD
  | SYNC_TILE
deriving DecidableEq, Repr

/-- Modelled from the spec: the four synchronization commands of the
rasterizer layer (full pipeline, raster pipe, texture load, tile
descriptor).  The body of rdp_sync is not part of the repository snapshot;
the spec says callers may request each primitive directly. -/
inductive SyncCmd
  | full
  | pipe
  | load
  | tile
deriving DecidableEq, Repr

/-- Modelled from the spec: rdp_sync (declared at rdp.h line 469) lets a
caller request one of the four synchronization primitives directly; it maps
each sync_t value to the corresponding synchronization command. -/
def rdp_sync : sync_t → SyncCmd
  | .SYNC_FULL => .full
  | .SYNC_PIPE => .pipe
  | .SYNC_LOAD => .load
  | .SYNC_TILE => .tile

/-! ## Claim C8 -/

/-- C8 counterexample: the claim asserts a set/clear bit pair for each of
the freeze, flush and counter-reset controls, but rdp.h declares only
clear bits (DP_WSTATUS_RESET_*_COUNTER) for the four counter resets, with
no SET counterpart, so the TMEM counter control has no set/clear pair. -/
theorem C8_counter_controls_have_no_set_bit :
    hasSetClearPair "FREEZE" = true ∧
    hasSetClearPair "TMEM_COUNTER" = false ∧
    hasSetClearPair "PIPE_COUNTER" = false ∧
    hasSetClearPair "CMD_COUNTER" = false ∧
    hasSetClearPair "CLOCK_COUNTER" = false := by
  decide

/-- C8 (amended): the DP status register exposes busy, buffer-ready,
dma-busy, end-valid and start-valid as distinct single bits at 1<<6 .. 1<<10;
the write-only status register accepts set/clear bit pairs for the freeze and
flush controls (and the DMEM-DMA mode), while the four counter-reset controls
(TMEM, PIPE, CMD, CLOCK) are single clear-only bits with no set counterpart. -/
theorem C8_dp_status_register_layout :
    (DP_STATUS_BUSY = 2 ^ 6 ∧
     DP_STATUS_BUFFER_READY = 2 ^ 7 ∧
     DP_STATUS_DMA_BUSY = 2 ^ 8 ∧
     DP_STATUS_END_VALID = 2 ^ 9 ∧
     DP_STATUS_START_VALID = 2 ^ 10) ∧
    List.Nodup [DP_STATUS_BUSY, DP_STATUS_BUFFER_READY, DP_STATUS_DMA_BUSY,
                DP_STATUS_END_VALID, DP_STATUS_START_VALID] ∧
    (hasSetClearPair "XBUS_DMEM_DMA" = true ∧
     hasSetClearPair "FREEZE" = true ∧
     hasSetClearPair "FLUSH" = true) ∧
    (wstatusBit "RESET_TMEM_COUNTER" = some (1 <<< 6) ∧
     wstatusBit "RESET_PIPE_COUNTER" = some (1 <<< 7) ∧
     wstatusBit "RESET_CMD_COUNTER" = some (1 <<< 8) ∧
     wstatusBit "RESET_CLOCK_COUNTER" = some (1 <<< 9) ∧
     hasSetClearPair "TMEM_COUNTER" = false ∧
     hasSetClearPair "PIPE_COUNTER" = false ∧
     hasSetClearPair "CMD_COUNTER" = false ∧
     hasSetClearPair "CLOCK_COUNTER" = false) := by
  decide

/-! ## Claim C9 -/

/-- C9: the rasterizer layer exposes exactly four synchronization primitives:
sync_t consists of exactly the four distinct values SYNC_FULL, SYNC_PIPE,
SYNC_LOAD, SYNC_TILE, and a caller may request each of them directly through
rdp_sync, which maps the four values onto the four distinct synchronization
commands (full-pipeline, raster-pipe, texture-load, tile-descriptor). -/
theorem C9_sync_taxonomy :
    (∀ s : sync_t,
      s = sync_t.SYNC_FULL ∨ s = sync_t.SYNC_PIPE ∨
      s = sync_t.SYNC_LOAD ∨ s = sync_t.SYNC_TILE) ∧
    List.Nodup [sync_t.SYNC_FULL, sync_t.SYNC_PIPE,
                sync_t.SYNC_LOAD, sync_t.SYNC_TILE] ∧
    [sync_t.SYNC_FULL, sync_t.SYNC_PIPE,
     sync_t.SYNC_LOAD, sync_t.SYNC_TILE].map rdp_sync
      = [SyncCmd.full, SyncCmd.pipe, SyncCmd.load, SyncCmd.tile] ∧
    List.Nodup [SyncCmd.full, SyncCmd.pipe, SyncCmd.load, SyncCmd.tile] := by
  refine ⟨fun s => ?_, by decide, by decide, by decide⟩
  cases s <;> simp

/-! ## Claim C2: double-buffered ring, non-blocking enqueue -/

/-- Modelled from the spec (section 4.1; the ring-buffer implementation is
not part of the repository snapshot): CPU-visible state of the
double-buffered command ring.  Each buffer holds the commands written to it
and not yet reclaimed by the coprocessor; cur is the buffer the write cursor
currently points into; signals logs the jump signals sent to the coprocessor
on a buffer switch. -/
structure RingState where
  cap : Nat
  buf0 : List Nat
  buf1 : List Nat
  cur : Bool
  signals : List Bool
deriving DecidableEq, Repr

/-- The contents of buffer b (false selects buffer 0, true buffer 1). -/
def RingState.bufAt (s : RingState) (b : Bool) : List Nat :=
  if b then s.buf1 else s.buf0

/-- Buffer b is full when it holds cap commands. -/
def RingState.isFull (s : RingState) (b : Bool) : Bool :=
  s.cap ≤ (s.bufAt b).length

/-- Append command c at the tail of buffer b. -/
def RingState.write (s : RingState) (b : Bool) (c : Nat) : RingState :=
  if b then { s with buf1 := s.buf1 ++ [c] } else { s with buf0 := s.buf0 ++ [c] }

/-- Result of a CPU-side enqueue.  The wouldBlock outcome exists so that
never blocks is expressible; the spec reserves blocking for wait/detach. -/
inductive EnqResult
  | ok (s : RingState)
  | wouldBlock
  | fatalCapacity
deriving DecidableEq, Repr

/-- Modelled from the spec: enqueue(command) appends the encoded command to
the tail of the current buffer; if that buffer is full it switches to the
other of the two buffers, signalling the coprocessor to jump there, and
writes into it; it fails with a fatal capacity error exactly when both
buffers are simultaneously full, and it never suspends the caller. -/
def enqueue (c : Nat) (s : RingState) : EnqResult :=
  if s.isFull s.cur = false then
    .ok (s.write s.cur c)
  else if s.isFull (!s.cur) = false then
    .ok { s.write (!s.cur) c with cur := !s.cur, signals := s.signals ++ [!s.cur] }
  else
    .fatalCapacity

/-- C2: enqueue never blocks the caller; it fails, with a fatal capacity
error, exactly when both ring buffers are simultaneously full; when only the
current buffer is full it switches the write cursor to the other buffer,
emits a jump signal to the coprocessor and appends the command there; and
when the current buffer has room it simply appends to it. -/
theorem C2_enqueue_never_blocks (c : Nat) (s : RingState) :
    (enqueue c s ≠ EnqResult.wouldBlock) ∧
    (enqueue c s = EnqResult.fatalCapacity ↔
      (s.isFull false = true ∧ s.isFull true = true)) ∧
    (s.isFull s.cur = true → s.isFull (!s.cur) = false →
      ∃ s2, enqueue c s = EnqResult.ok s2 ∧ s2.cur = !s.cur ∧
        s2.signals = s.signals ++ [!s.cur] ∧
        s2.bufAt (!s.cur) = s.bufAt (!s.cur) ++ [c] ∧
        s2.bufAt s.cur = s.bufAt s.cur) ∧
    (s.isFull s.cur = false →
      ∃ s2, enqueue c s = EnqResult.ok s2 ∧ s2.cur = s.cur ∧
        s2.signals = s.signals ∧
        s2.bufAt s.cur = s.bufAt s.cur ++ [c] ∧
        s2.bufAt (!s.cur) = s.bufAt (!s.cur)) := by
  have hsym : (s.isFull false = true ∧ s.isFull true = true) ↔
      (s.isFull s.cur = true ∧ s.isFull (!s.cur) = true) := by
    cases hcur : s.cur <;> simp [hcur, and_comm]
  refine ⟨?_, ?_, ?_, ?_⟩
  · unfold enqueue; split_ifs <;> simp
  · rw [hsym]
    unfold enqueue
    split_ifs with ha hb
    · simp [ha]
    · simp [hb]
    · simp at ha hb
      simp [ha, hb]
  · intro h1 h2
    unfold enqueue
    rw [if_neg (by simp [h1]), if_pos h2]
    refine ⟨_, rfl, rfl, rfl, ?_, ?_⟩ <;>
      cases hcur : s.cur <;> simp [hcur, RingState.write, RingState.bufAt]
  · intro h1
    unfold enqueue
    rw [if_pos h1]
    refine ⟨_, rfl, ?_, ?_, ?_, ?_⟩ <;>
      cases hcur : s.cur <;> simp [hcur, RingState.write, RingState.bufAt]

/-- C2 witness: with capacity 1, buffer 0 full and buffer 1 empty, an
enqueue switches to buffer 1, signals a jump and succeeds. -/
theorem C2_enqueue_never_blocks_witness :
    (RingState.mk 1 [9] [] false []).isFull false = true ∧
    (RingState.mk 1 [9] [] false []).isFull true = false ∧
    ∃ s2, enqueue 7 (RingState.mk 1 [9] [] false []) = EnqResult.ok s2 ∧
      s2.cur = true ∧ s2.signals = [true] ∧ s2.bufAt true = [7] := by
  refine ⟨by decide, by decide, ?_⟩
  obtain ⟨s2, he, hc, hs, hb, -⟩ :=
    (C2_enqueue_never_blocks 7 (RingState.mk 1 [9] [] false [])).2.2.1
      (by decide) (by decide)
  exact ⟨s2, he, hc, hs, hb⟩

/-! ## Claim C5: block recording round-trip -/

/-- Modelled from the spec (section 4.3; the block recorder implementation
is not in the repository snapshot): an encoded command is either a basic
command word or a call to a recorded block, which is itself an ordered list
of encoded commands (blocks may nest). -/
inductive BCmd
  | basic (w : Nat)
  | call (cmds : List BCmd)

/-- Concatenation of optional effect streams: defined when both are. -/
def optCat : Option (List Nat) → Option (List Nat) → Option (List Nat)
  | some a, some b => some (a ++ b)
  | _, _ => none

/-- Modelled from the spec: one level of coprocessor execution of a command
stream.  A basic command emits its word; a block call runs the block
contents through the deep interpreter (one call-stack level down) and
returns control to the stream. -/
def execWith (deep : List BCmd → Option (List Nat)) : List BCmd → Option (List Nat)
  | [] => some []
  | .basic w :: r => (execWith deep r).map (fun t => w :: t)
  | .call cs :: r => optCat (deep cs) (execWith deep r)

/-- Modelled from the spec: coprocessor execution of a command stream with a
bounded call stack of f remaining levels; attempting a block call with the
call stack exhausted is a fatal error (none). -/
def execFuel : Nat → List BCmd → Option (List Nat)
  | 0 => execWith (fun _ => none)
  | f + 1 => execWith (execFuel f)

/-- One level of the record-time nesting check: a stream fits when every
block it calls fits one level down. -/
def okDepthWith (deep : List BCmd → Bool) : List BCmd → Bool
  | [] => true
  | .basic _ :: r => okDepthWith deep r
  | .call cs :: r => deep cs && okDepthWith deep r

/-- A command stream nests at most f levels of block calls. -/
def fitsDepth : Nat → List BCmd → Bool
  | 0 => okDepthWith (fun _ => false)
  | f + 1 => okDepthWith (fitsDepth f)

/-- Modelled from the spec: the coprocessor call-stack bound, a fixed small
constant limiting block nesting. -/
def MAX_NESTING : Nat := 8

/-- Modelled from the spec: begin_block starts recording into an empty
growable buffer. -/
def begin_block : List BCmd := []

/-- Modelled from the spec: while recording, each enqueue appends the
encoded command to the growable recording buffer instead of the ring. -/
def record (buf : List BCmd) (c : BCmd) : List BCmd := buf ++ [c]

/-- Modelled from the spec: end_block closes the recording into an immutable
block; exceeding the nesting bound is a fatal configuration error at record
time, so the block is produced only when one more level of call nesting
still fits the coprocessor call stack. -/
def end_block (cs : List BCmd) : Option (List BCmd) :=
  if fitsDepth (MAX_NESTING - 1) cs then some cs else none

theorem execWith_append (deep : List BCmd → Option (List Nat)) :
    ∀ a b : List BCmd,
      execWith deep (a ++ b) = optCat (execWith deep a) (execWith deep b) := by
  intro a b
  induction a with
  | nil =>
    cases h : execWith deep b <;> simp [execWith, optCat, h]
  | cons c r ih =>
    cases c with
    | basic w =>
      rw [List.cons_append]
      simp only [execWith, ih]
      cases h1 : execWith deep r <;> cases h2 : execWith deep b <;> simp [optCat]
    | call cs =>
      rw [List.cons_append]
      simp only [execWith, ih]
      cases h0 : deep cs <;> cases h1 : execWith deep r <;>
        cases h2 : execWith deep b <;> simp [optCat]

theorem execFuel_append (f : Nat) (a b : List BCmd) :
    execFuel f (a ++ b) = optCat (execFuel f a) (execFuel f b) := by
  cases f <;> exact execWith_append _ a b

theorem okDepthWith_mem (deep : List BCmd → Bool) :
    ∀ a cs, okDepthWith deep a = true → BCmd.call cs ∈ a → deep cs = true := by
  intro a cs ha hm
  induction a with
  | nil => cases hm
  | cons c r ih =>
    cases c with
    | basic w =>
      rcases List.mem_cons.mp hm with h | h
      · cases h
      · exact ih ha h
    | call cs2 =>
      simp only [okDepthWith, Bool.and_eq_true] at ha
      rcases List.mem_cons.mp hm with h | h
      · cases h; exact ha.1
      · exact ih ha.2 h

theorem execWith_congr (d1 d2 : List BCmd → Option (List Nat)) :
    ∀ a, (∀ cs, BCmd.call cs ∈ a → d1 cs = d2 cs) →
      execWith d1 a = execWith d2 a := by
  intro a h
  induction a with
  | nil => rfl
  | cons c r ih =>
    cases c with
    | basic w =>
      simp only [execWith]
      rw [ih (fun cs hm => h cs (List.mem_cons_of_mem _ hm))]
    | call cs =>
      simp only [execWith]
      rw [h cs (List.mem_cons_self _ _), ih (fun cs2 hm => h cs2 (List.mem_cons_of_mem _ hm))]

theorem okDepthWith_impl (d1 d2 : List BCmd → Bool)
    (h : ∀ cs, d1 cs = true → d2 cs = true) :
    ∀ a, okDepthWith d1 a = true → okDepthWith d2 a = true := by
  intro a ha
  induction a with
  | nil => rfl
  | cons c r ih =>
    cases c with
    | basic w => exact ih ha
    | call cs =>
      simp only [okDepthWith, Bool.and_eq_true] at ha ⊢
      exact ⟨h cs ha.1, ih ha.2⟩

theorem fitsDepth_succ_mono : ∀ (f : Nat) (a : List BCmd),
    fitsDepth f a = true → fitsDepth (f + 1) a = true := by
  intro f
  induction f with
  | zero =>
    intro a ha
    exact okDepthWith_impl _ _ (fun cs h => absurd h (by simp)) a ha
  | succ f1 ih =>
    intro a ha
    exact okDepthWith_impl _ _ ih a ha

theorem fitsDepth_le_mono (f g : Nat) (a : List BCmd) (hle : f ≤ g)
    (ha : fitsDepth f a = true) : fitsDepth g a = true := by
  induction g, hle using Nat.le_induction with
  | base => exact ha
  | succ n hn ih => exact fitsDepth_succ_mono n a ih

theorem execFuel_succ_congr : ∀ (f : Nat) (a : List BCmd),
    fitsDepth f a = true → execFuel (f + 1) a = execFuel f a := by
  intro f
  induction f with
  | zero =>
    intro a ha
    exact execWith_congr _ _ a
      (fun cs hm => absurd (okDepthWith_mem _ a cs ha hm) (by simp))
  | succ f1 ih =>
    intro a ha
    exact execWith_congr _ _ a
      (fun cs hm => ih cs (okDepthWith_mem _ a cs ha hm))

theorem execFuel_ge_congr (f g : Nat) (a : List BCmd) (hle : f ≤ g)
    (ha : fitsDepth f a = true) : execFuel g a = execFuel f a := by
  induction g, hle using Nat.le_induction with
  | base => rfl
  | succ n hn ih =>
    rw [execFuel_succ_congr n a (fitsDepth_le_mono f n a hn ha), ih]

theorem execFuel_isSome_of_fits : ∀ (f : Nat) (a : List BCmd),
    fitsDepth f a = true → (execFuel f a).isSome = true := by
  intro f
  induction f with
  | zero =>
    intro a ha
    induction a with
    | nil => rfl
    | cons c r ih =>
      cases c with
      | basic w =>
        have := ih ha
        show (Option.map _ (execWith _ r)).isSome = true
        cases h : execWith (fun _ => none) r <;> simp_all [execFuel]
      | call cs =>
        exact absurd (okDepthWith_mem _ _ cs ha (List.mem_cons_self _ _)) (by simp)
  | succ f1 outih =>
    intro a ha
    induction a with
    | nil => rfl
    | cons c r ih =>
      cases c with
      | basic w =>
        have := ih ha
        show (Option.map _ (execWith _ r)).isSome = true
        cases h : execWith (execFuel f1) r <;> simp_all [execFuel]
      | call cs =>
        simp only [fitsDepth, okDepthWith, Bool.and_eq_true] at ha
        have h1 := outih cs ha.1
        have h2 := ih ha.2
        show (optCat (execFuel f1 cs) (execWith (execFuel f1) r)).isSome = true
        cases hc : execFuel f1 cs <;> cases hr : execWith (execFuel f1) r <;>
          simp_all [optCat, execFuel]

theorem foldl_record_eq : ∀ (cs acc : List BCmd), cs.foldl record acc = acc ++ cs
  | [], acc => by simp
  | c :: r, acc => by
    rw [List.foldl_cons, foldl_record_eq r (record acc c)]
    simp [record]

/-- C5: recording commands between begin_block and end_block and enqueuing a
single call to the resulting block yields coprocessor-visible effects
identical to enqueuing the same commands directly, in any surrounding
stream; and playing the block never exhausts the coprocessor call stack,
because the nesting bound was already enforced at record time. -/
theorem C5_block_roundtrip (cs pre post blk : List BCmd)
    (h : end_block (cs.foldl record begin_block) = some blk) :
    execFuel MAX_NESTING (pre ++ [BCmd.call blk] ++ post)
      = execFuel MAX_NESTING (pre ++ cs ++ post) ∧
    (execFuel MAX_NESTING [BCmd.call blk]).isSome = true := by
  rw [begin_block, foldl_record_eq cs [], List.nil_append, end_block] at h
  by_cases hd : fitsDepth (MAX_NESTING - 1) cs = true
  · rw [if_pos hd] at h
    obtain rfl : cs = blk := by injection h
    have h7 : fitsDepth 7 cs = true := hd
    have hsome : (execFuel 7 cs).isSome = true := execFuel_isSome_of_fits 7 cs h7
    have hmid : execFuel MAX_NESTING [BCmd.call cs] = execFuel MAX_NESTING cs := by
      show execFuel (7 + 1) [BCmd.call cs] = execFuel MAX_NESTING cs
      have : execFuel (7 + 1) [BCmd.call cs]
          = optCat (execFuel 7 cs) (some []) := rfl
      rw [this, execFuel_ge_congr 7 MAX_NESTING cs (by simp [MAX_NESTING]) h7]
      cases hc : execFuel 7 cs <;> simp_all [optCat]
    constructor
    · rw [execFuel_append, execFuel_append, execFuel_append, execFuel_append, hmid]
    · rw [hmid, execFuel_ge_congr 7 MAX_NESTING cs (by simp [MAX_NESTING]) h7]
      exact hsome
  · rw [if_neg hd] at h
    exact absurd h (by simp)

/-- C5 witness: recording two basic commands and calling the block produces
the same effect stream as enqueuing them directly. -/
theorem C5_block_roundtrip_witness :
    end_block ([BCmd.basic 1, BCmd.basic 2].foldl record begin_block)
      = some [BCmd.basic 1, BCmd.basic 2] ∧
    execFuel MAX_NESTING
        ([] ++ [BCmd.call [BCmd.basic 1, BCmd.basic 2]] ++ [BCmd.basic 3])
      = execFuel MAX_NESTING ([] ++ [BCmd.basic 1, BCmd.basic 2] ++ [BCmd.basic 3]) :=
  ⟨rfl, (C5_block_roundtrip [BCmd.basic 1, BCmd.basic 2] []
    [BCmd.basic 3] [BCmd.basic 1, BCmd.basic 2] rfl).1⟩

/-! ## Claim C1: FIFO order and the high-priority channel -/

/-- Modelled from the spec (sections 4.1 and 4.5; the queue implementation
is not under src/): the channel a command was enqueued on. -/
inductive Chan
  | norm
  | hp
deriving DecidableEq, Repr

/-- Events of the queue protocol: the CPU enqueues a command word on the
normal or on the high-priority channel; exec is one coprocessor dispatch. -/
inductive QEvent
  | enqN (c : Nat)
  | enqH (c : Nat)
  | exec
deriving DecidableEq, Repr

/-- Modelled from the spec: the joint state of the normal queue, the
high-priority queue and the coprocessor-observed execution log. -/
structure QState where
  nq : List Nat
  hq : List Nat
  done : List (Chan × Nat)
deriving DecidableEq, Repr

/-- Modelled from the spec: one protocol step.  Enqueues append at the tail
of their channel; a coprocessor dispatch drains the high-priority queue
first and only then consumes the next normal command, and each dispatched
command is appended to the execution log with its channel. -/
def qstep (s : QState) : QEvent → QState
  | .enqN c => { s with nq := s.nq ++ [c] }
  | .enqH c => { s with hq := s.hq ++ [c] }
  | .exec =>
    match s.hq with
    | c :: rest => { s with hq := rest, done := s.done ++ [(Chan.hp, c)] }
    | [] =>
      match s.nq with
      | c :: rest => { s with nq := rest, done := s.done ++ [(Chan.norm, c)] }
      | [] => s

/-- The initial queue state: both channels empty, nothing executed. -/
def qinit : QState := ⟨[], [], []⟩

/-- Run a sequence of protocol events from the initial state. -/
def qrun (evs : List QEvent) : QState := evs.foldl qstep qinit

/-- The command words enqueued on the normal channel, in enqueue order. -/
def enqListN : List QEvent → List Nat
  | [] => []
  | .enqN c :: r => c :: enqListN r
  | _ :: r => enqListN r

/-- The command words enqueued on the high-priority channel, in order. -/
def enqListH : List QEvent → List Nat
  | [] => []
  | .enqH c :: r => c :: enqListH r
  | _ :: r => enqListH r

/-- The commands of one channel inside an execution log, in order. -/
def projChan (ch : Chan) (l : List (Chan × Nat)) : List Nat :=
  l.filterMap (fun p => if p.1 = ch then some p.2 else none)

/-- The part of the execution log produced after the events evs, when the
run continues with the events post. -/
def execDelta (evs post : List QEvent) : List (Chan × Nat) :=
  (qrun (evs ++ post)).done.drop (qrun evs).done.length

/-- a occurs in l, and no occurrence of b precedes the first such a. -/
def SplitsBefore (a b : Chan × Nat) (l : List (Chan × Nat)) : Prop :=
  ∃ l1 l2, l = l1 ++ a :: l2 ∧ b ∉ l1

theorem projChan_append (ch : Chan) (l1 l2 : List (Chan × Nat)) :
    projChan ch (l1 ++ l2) = projChan ch l1 ++ projChan ch l2 := by
  simp [projChan]

theorem projChan_nil (ch : Chan) : projChan ch [] = [] := rfl

theorem qrun_fifo_aux : ∀ (evs : List QEvent) (s : QState),
    projChan Chan.norm (List.foldl qstep s evs).done ++ (List.foldl qstep s evs).nq
      = projChan Chan.norm s.done ++ s.nq ++ enqListN evs ∧
    projChan Chan.hp (List.foldl qstep s evs).done ++ (List.foldl qstep s evs).hq
      = projChan Chan.hp s.done ++ s.hq ++ enqListH evs := by
  intro evs
  induction evs with
  | nil => intro s; simp [enqListN, enqListH]
  | cons e r ih =>
    intro s
    rw [List.foldl_cons]
    obtain ⟨ihn, ihh⟩ := ih (qstep s e)
    cases e with
    | enqN c =>
      rw [ihn, ihh]
      simp [qstep, enqListN, enqListH]
    | enqH c =>
      rw [ihn, ihh]
      simp [qstep, enqListN, enqListH]
    | exec =>
      rw [ihn, ihh]
      cases hq : s.hq with
      | cons c rest =>
        simp [qstep, hq, enqListN, enqListH, projChan_append, projChan]
      | nil =>
        cases nq : s.nq with
        | cons c rest =>
          simp [qstep, hq, nq, enqListN, enqListH, projChan_append, projChan]
        | nil =>
          simp [qstep, hq, nq, enqListN, enqListH]

theorem qstep_done_extends (s : QState) (e : QEvent) :
    ∃ d, (qstep s e).done = s.done ++ d := by
  cases e with
  | enqN c => exact ⟨[], by simp [qstep]⟩
  | enqH c => exact ⟨[], by simp [qstep]⟩
  | exec =>
    cases hq : s.hq with
    | cons c rest => exact ⟨[(Chan.hp, c)], by simp [qstep, hq]⟩
    | nil =>
      cases nq : s.nq with
      | cons c rest => exact ⟨[(Chan.norm, c)], by simp [qstep, hq, nq]⟩
      | nil => exact ⟨[], by simp [qstep, hq, nq]⟩

theorem foldl_done_extends : ∀ (evs : List QEvent) (s : QState),
    ∃ d, (List.foldl qstep s evs).done = s.done ++ d := by
  intro evs
  induction evs with
  | nil => intro s; exact ⟨[], by simp⟩
  | cons e r ih =>
    intro s
    rw [List.foldl_cons]
    obtain ⟨d1, h1⟩ := ih (qstep s e)
    obtain ⟨d0, h0⟩ := qstep_done_extends s e
    exact ⟨d0 ++ d1, by rw [h1, h0, List.append_assoc]⟩

theorem hp_executes_first : ∀ (post : List QEvent) (s : QState) (h : Nat),
    h ∈ s.hq → ∀ d : List (Chan × Nat),
    (List.foldl qstep s post).done = s.done ++ d →
    ∀ n, (Chan.norm, n) ∈ d → SplitsBefore (Chan.hp, h) (Chan.norm, n) d := by
  intro post
  induction post with
  | nil =>
    intro s h hmem d hdone n hn
    have hlen := congrArg List.length hdone
    simp only [List.foldl_nil, List.length_append] at hlen
    have : d = [] := List.eq_nil_of_length_eq_zero (by omega)
    subst this
    cases hn
  | cons e r ih =>
    intro s h hmem d hdone n hn
    rw [List.foldl_cons] at hdone
    cases e with
    | enqN c =>
      exact ih (qstep s (QEvent.enqN c)) h hmem d hdone n hn
    | enqH c =>
      refine ih (qstep s (QEvent.enqH c)) h ?_ d hdone n hn
      simp only [qstep]
      exact List.mem_append_left _ hmem
    | exec =>
      cases hq : s.hq with
      | nil => rw [hq] at hmem; cases hmem
      | cons a rest =>
        obtain ⟨d2, h2⟩ := foldl_done_extends r (qstep s QEvent.exec)
        have hstep : (qstep s QEvent.exec).done = s.done ++ [(Chan.hp, a)] := by
          simp [qstep, hq]
        have hcomb : s.done ++ ([(Chan.hp, a)] ++ d2) = s.done ++ d := by
          rw [← List.append_assoc, ← hstep, ← h2, hdone]
        have hd : d = (Chan.hp, a) :: d2 := by
          have := List.append_cancel_left hcomb
          simpa using this.symm
        subst hd
        rw [hq] at hmem
        rcases List.mem_cons.mp hmem with hha | hha
        · subst hha
          exact ⟨[], d2, rfl, by simp⟩
        · have hhq : h ∈ (qstep s QEvent.exec).hq := by simp [qstep, hq, hha]
          have hn2 : (Chan.norm, n) ∈ d2 := by
            rcases List.mem_cons.mp hn with hbad | hok
            · cases hbad
            · exact hok
          obtain ⟨l1, l2, hsplit, hnot⟩ :=
            ih (qstep s QEvent.exec) h hhq d2 h2 n hn2
          refine ⟨(Chan.hp, a) :: l1, l2, by rw [hsplit]; rfl, ?_⟩
          intro hc
          rcases List.mem_cons.mp hc with hbad | hbad
          · cases hbad
          · exact hnot hbad

/-- C1: the coprocessor-observed execution order is the CPU enqueue order:
on each channel the executed commands are a prefix of the enqueued commands
in enqueue order, and this FIFO property is preserved by any per-overlay
restriction of the normal stream (no per-overlay reordering); moreover any
high-priority enqueue executes no later than the next normal-channel
dispatch boundary: in the part of the execution log produced after the
high-priority enqueue, no normal command appears before it. -/
theorem C1_fifo_and_high_priority (evs : List QEvent) :
    (∃ r, projChan Chan.norm (qrun evs).done ++ r = enqListN evs) ∧
    (∃ r, projChan Chan.hp (qrun evs).done ++ r = enqListH evs) ∧
    (∀ f : Nat → Bool, ∃ r,
      (projChan Chan.norm (qrun evs).done).filter f ++ r = (enqListN evs).filter f) ∧
    (∀ pre h post n, evs = pre ++ QEvent.enqH h :: post →
      (Chan.norm, n) ∈ execDelta (pre ++ [QEvent.enqH h]) post →
      SplitsBefore (Chan.hp, h) (Chan.norm, n)
        (execDelta (pre ++ [QEvent.enqH h]) post)) := by
  obtain ⟨hn, hh⟩ := qrun_fifo_aux evs qinit
  rw [show List.foldl qstep qinit evs = qrun evs from rfl] at hn hh
  simp only [qinit] at hn hh
  simp only [projChan_nil, List.nil_append] at hn hh
  refine ⟨⟨(qrun evs).nq, hn⟩, ⟨(qrun evs).hq, hh⟩, ?_, ?_⟩
  · intro f
    exact ⟨(qrun evs).nq.filter f, by rw [← List.filter_append, hn]⟩
  · intro pre h post n hevs hmem
    have hsplitrun : qrun evs = List.foldl qstep (qrun (pre ++ [QEvent.enqH h])) post := by
      rw [hevs, qrun, qrun, ← List.foldl_append]
      simp
    obtain ⟨d, hd⟩ := foldl_done_extends post (qrun (pre ++ [QEvent.enqH h]))
    have hdelta : execDelta (pre ++ [QEvent.enqH h]) post = d := by
      rw [execDelta, show pre ++ [QEvent.enqH h] ++ post = evs by rw [hevs]; simp,
        hsplitrun, hd, List.drop_left]
    have hhq : h ∈ (qrun (pre ++ [QEvent.enqH h])).hq := by
      rw [qrun, List.foldl_append]
      simp [qstep]
    rw [hdelta] at hmem ⊢
    exact hp_executes_first post (qrun (pre ++ [QEvent.enqH h])) h hhq d hd n hmem

/-- C1 witness: with one normal command pending, a high-priority enqueue and
two dispatches execute the high-priority command before the normal one. -/
theorem C1_fifo_and_high_priority_witness :
    ((Chan.norm, 1) ∈ execDelta [QEvent.enqN 1, QEvent.enqH 5]
      [QEvent.exec, QEvent.exec]) ∧
    SplitsBefore (Chan.hp, 5) (Chan.norm, 1)
      (execDelta [QEvent.enqN 1, QEvent.enqH 5] [QEvent.exec, QEvent.exec]) :=
  ⟨by decide,
   (C1_fifo_and_high_priority
      [QEvent.enqN 1, QEvent.enqH 5, QEvent.exec, QEvent.exec]).2.2.2
     [QEvent.enqN 1] 5 [QEvent.exec, QEvent.exec] 1 rfl (by decide)⟩

/-! ## Claim C6: sync points -/

/-- Modelled from the spec (section 4.4; the sync point manager is not
under src/): an item in the command queue is either a work command or the
counter-bump command that a sync point creation enqueues at the tail,
carrying the sync id. -/
inductive SItem
  | cmd (n : Nat)
  | bump (id : Nat)
deriving DecidableEq, Repr

/-- Events: the CPU enqueues a work command or creates a sync point; exec
is one coprocessor dispatch consuming the head of the queue. -/
inductive SEvent
  | work (n : Nat)
  | newSync
  | exec
deriving DecidableEq, Repr

/-- Modelled from the spec: the queue contents, the completion counter the
coprocessor advances, the next sync id to allocate, the log of executed
work commands and the log of issued sync ids. -/
structure SState where
  queue : List SItem
  doneCmds : List Nat
  counter : Nat
  nextId : Nat
  issued : List Nat
deriving DecidableEq, Repr

/-- Modelled from the spec: one step.  new_sync_point allocates the next id
and enqueues a bump command at the current tail; the coprocessor consumes
the queue in order, logging work commands and advancing the completion
counter on each bump. -/
def sstep (s : SState) : SEvent → SState
  | .work n => { s with queue := s.queue ++ [SItem.cmd n] }
  | .newSync =>
    { s with queue := s.queue ++ [SItem.bump s.nextId],
             nextId := s.nextId + 1, issued := s.issued ++ [s.nextId] }
  | .exec =>
    match s.queue with
    | [] => s
    | SItem.cmd n :: rest => { s with queue := rest, doneCmds := s.doneCmds ++ [n] }
    | SItem.bump _ :: rest => { s with queue := rest, counter := s.counter + 1 }

/-- Initial sync state: empty queue, counter 0, first sync id 1. -/
def sinit : SState := ⟨[], [], 0, 1, []⟩

/-- Run a sequence of sync-protocol events from the initial state. -/
def srun (evs : List SEvent) : SState := evs.foldl sstep sinit

/-- A sync point is reached when the completion counter is at least its id. -/
def reached (id : Nat) (s : SState) : Prop := id ≤ s.counter

instance (id : Nat) (s : SState) : Decidable (reached id s) :=
  Nat.decLe id s.counter

/-- Non-blocking poll of a sync point. -/
def spoll (id : Nat) (s : SState) : Bool := decide (id ≤ s.counter)

/-- The work command words of a queue segment, in order. -/
def cmdsOf (l : List SItem) : List Nat :=
  l.filterMap (fun i => match i with | .cmd n => some n | .bump _ => none)

/-- The bump ids of a queue segment, in order. -/
def bumpsOf (l : List SItem) : List Nat :=
  l.filterMap (fun i => match i with | .bump j => some j | .cmd _ => none)

/-- The work command words enqueued by a sequence of events, in order. -/
def worksOf (evs : List SEvent) : List Nat :=
  evs.filterMap (fun e => match e with | .work n => some n | _ => none)

/-- The number of sync points created by a sequence of events. -/
def nsyncs (evs : List SEvent) : Nat :=
  evs.countP (fun e => match e with | .newSync => true | _ => false)

/-- The full item sequence a run enqueues, in enqueue order, when sync ids
are allocated from i. -/
def globalItems : List SEvent → Nat → List SItem
  | [], _ => []
  | .work n :: r, i => SItem.cmd n :: globalItems r i
  | .newSync :: r, i => SItem.bump i :: globalItems r (i + 1)
  | .exec :: r, i => globalItems r i

theorem nsyncs_append (a b : List SEvent) : nsyncs (a ++ b) = nsyncs a + nsyncs b := by
  simp [nsyncs, List.countP_append]

theorem cmdsOf_append (a b : List SItem) : cmdsOf (a ++ b) = cmdsOf a ++ cmdsOf b := by
  simp [cmdsOf]

theorem bumpsOf_append (a b : List SItem) : bumpsOf (a ++ b) = bumpsOf a ++ bumpsOf b := by
  simp [bumpsOf]

theorem globalItems_append : ∀ (a b : List SEvent) (i : Nat),
    globalItems (a ++ b) i = globalItems a i ++ globalItems b (i + nsyncs a) := by
  intro a
  induction a with
  | nil => intro b i; simp [globalItems, nsyncs]
  | cons e r ih =>
    intro b i
    cases e with
    | work n =>
      rw [List.cons_append]
      show SItem.cmd n :: globalItems (r ++ b) i = _
      rw [ih b i, show nsyncs (SEvent.work n :: r) = nsyncs r by simp [nsyncs]]
      rfl
    | newSync =>
      rw [List.cons_append]
      show SItem.bump i :: globalItems (r ++ b) (i + 1) = _
      rw [ih b (i + 1),
          show nsyncs (SEvent.newSync :: r) = nsyncs r + 1 by simp [nsyncs],
          show i + (nsyncs r + 1) = i + 1 + nsyncs r by omega]
      rfl
    | exec =>
      rw [List.cons_append]
      show globalItems (r ++ b) i = _
      rw [ih b i, show nsyncs (SEvent.exec :: r) = nsyncs r by simp [nsyncs]]
      rfl

theorem bumpsOf_globalItems : ∀ (evs : List SEvent) (i : Nat),
    bumpsOf (globalItems evs i) = List.range' i (nsyncs evs) := by
  intro evs
  induction evs with
  | nil => intro i; simp [globalItems, bumpsOf, nsyncs]
  | cons e r ih =>
    intro i
    cases e with
    | work n =>
      show bumpsOf (SItem.cmd n :: globalItems r i) = _
      rw [show nsyncs (SEvent.work n :: r) = nsyncs r by simp [nsyncs]]
      simpa [bumpsOf] using ih i
    | newSync =>
      show bumpsOf (SItem.bump i :: globalItems r (i + 1)) = _
      rw [show nsyncs (SEvent.newSync :: r) = nsyncs r + 1 by simp [nsyncs],
          List.range'_succ]
      simpa [bumpsOf] using ih (i + 1)
    | exec =>
      show bumpsOf (globalItems r i) = _
      rw [show nsyncs (SEvent.exec :: r) = nsyncs r by simp [nsyncs]]
      exact ih i

theorem cmdsOf_globalItems : ∀ (evs : List SEvent) (i : Nat),
    cmdsOf (globalItems evs i) = worksOf evs := by
  intro evs
  induction evs with
  | nil => intro i; simp [globalItems, cmdsOf, worksOf]
  | cons e r ih =>
    intro i
    cases e with
    | work n =>
      show cmdsOf (SItem.cmd n :: globalItems r i) = _
      rw [show worksOf (SEvent.work n :: r) = n :: worksOf r by simp [worksOf]]
      simpa [cmdsOf] using ih i
    | newSync =>
      show cmdsOf (SItem.bump i :: globalItems r (i + 1)) = _
      rw [show worksOf (SEvent.newSync :: r) = worksOf r by simp [worksOf]]
      simpa [cmdsOf] using ih (i + 1)
    | exec =>
      show cmdsOf (globalItems r i) = _
      rw [show worksOf (SEvent.exec :: r) = worksOf r by simp [worksOf]]
      exact ih i

theorem bump_mem_iff (id : Nat) (l : List SItem) :
    SItem.bump id ∈ l ↔ id ∈ bumpsOf l := by
  simp only [bumpsOf, List.mem_filterMap]
  constructor
  · intro h; exact ⟨SItem.bump id, h, rfl⟩
  · rintro ⟨a, ha, hf⟩
    cases a with
    | cmd n => simp at hf
    | bump j => simp at hf; subst hf; exact ha

theorem bumpsOf_take_le (k : Nat) (l : List SItem) :
    (bumpsOf (l.take k)).length ≤ (bumpsOf l).length := by
  have h := congrArg bumpsOf (List.take_append_drop k l)
  rw [bumpsOf_append] at h
  have := congrArg List.length h
  simp only [List.length_append] at this
  omega

/-- The run invariant: the state of srun is the global enqueue sequence cut
at the dispatch position k, with the completion counter counting the bumps
already consumed and the issued log listing every allocated id. -/
theorem srun_global_inv (evs : List SEvent) :
    ∃ k, k ≤ (globalItems evs 1).length ∧
      (srun evs).queue = (globalItems evs 1).drop k ∧
      (srun evs).doneCmds = cmdsOf ((globalItems evs 1).take k) ∧
      (srun evs).counter = (bumpsOf ((globalItems evs 1).take k)).length ∧
      (srun evs).nextId = 1 + nsyncs evs ∧
      (srun evs).issued = bumpsOf (globalItems evs 1) := by
  induction evs using List.reverseRecOn with
  | nil => exact ⟨0, by decide⟩
  | append_singleton as e ih =>
    obtain ⟨k, hk, hq, hd, hc, hn, hi⟩ := ih
    have hrun : srun (as ++ [e]) = sstep (srun as) e := by
      show (as ++ [e]).foldl sstep sinit = sstep (as.foldl sstep sinit) e
      rw [List.foldl_append]
      rfl
    have hG : globalItems (as ++ [e]) 1
        = globalItems as 1 ++ globalItems [e] (1 + nsyncs as) :=
      globalItems_append as [e] 1
    cases e with
    | work n =>
      have hG2 : globalItems (as ++ [SEvent.work n]) 1
          = globalItems as 1 ++ [SItem.cmd n] := by
        rw [hG]; rfl
      refine ⟨k, ?_, ?_, ?_, ?_, ?_, ?_⟩
      · rw [hG2]; simp; omega
      · rw [hrun, hG2]
        show (srun as).queue ++ [SItem.cmd n] = _
        rw [hq, List.drop_append_of_le_length hk]
      · rw [hrun, hG2]
        show (srun as).doneCmds = _
        rw [hd, List.take_append_of_le_length hk]
      · rw [hrun, hG2]
        show (srun as).counter = _
        rw [hc, List.take_append_of_le_length hk]
      · rw [hrun]
        show (srun as).nextId = _
        rw [hn, nsyncs_append]
        simp [nsyncs]
      · rw [hrun, hG2]
        show (srun as).issued = _
        rw [hi, bumpsOf_append]
        simp [bumpsOf]
    | newSync =>
      have hG2 : globalItems (as ++ [SEvent.newSync]) 1
          = globalItems as 1 ++ [SItem.bump (1 + nsyncs as)] := by
        rw [hG]; rfl
      refine ⟨k, ?_, ?_, ?_, ?_, ?_, ?_⟩
      · rw [hG2]; simp; omega
      · rw [hrun, hG2]
        show (srun as).queue ++ [SItem.bump (srun as).nextId] = _
        rw [hq, hn, List.drop_append_of_le_length hk]
      · rw [hrun, hG2]
        show (srun as).doneCmds = _
        rw [hd, List.take_append_of_le_length hk]
      · rw [hrun, hG2]
        show (srun as).counter = _
        rw [hc, List.take_append_of_le_length hk]
      · rw [hrun]
        show (srun as).nextId + 1 = _
        rw [hn, nsyncs_append]
        simp [nsyncs]
        omega
      · rw [hrun, hG2]
        show (srun as).issued ++ [(srun as).nextId] = _
        rw [hi, hn, bumpsOf_append]
        simp [bumpsOf]
    | exec =>
      have hG2 : globalItems (as ++ [SEvent.exec]) 1 = globalItems as 1 := by
        rw [hG]; simp [globalItems]
      have hns : nsyncs (as ++ [SEvent.exec]) = nsyncs as := by
        rw [nsyncs_append]; simp [nsyncs]
      cases hqq : (srun as).queue with
      | nil =>
        refine ⟨k, ?_, ?_, ?_, ?_, ?_, ?_⟩
        · rw [hG2]; exact hk
        · rw [hrun, hG2]; simp only [sstep, hqq]; rw [← hqq]; exact hq
        · rw [hrun, hG2]; simp only [sstep, hqq]; exact hd
        · rw [hrun, hG2]; simp only [sstep, hqq]; exact hc
        · rw [hrun]; simp only [sstep, hqq]; rw [hn, hns]
        · rw [hrun, hG2]; simp only [sstep, hqq]; exact hi
      | cons it rest =>
        have hlt : k < (globalItems as 1).length := by
          by_contra hge
          push_neg at hge
          rw [List.drop_eq_nil_of_le hge] at hq
          rw [hq] at hqq
          cases hqq
        have hcons : (globalItems as 1).drop k
            = (globalItems as 1)[k] :: (globalItems as 1).drop (k + 1) :=
          List.drop_eq_getElem_cons hlt
        have hit : it = (globalItems as 1)[k]
            ∧ rest = (globalItems as 1).drop (k + 1) := by
          rw [hq, hcons] at hqq
          exact ⟨(List.cons.injEq _ _ _ _ ▸ hqq).1.symm,
                 (List.cons.injEq _ _ _ _ ▸ hqq).2.symm⟩
        have htake : (globalItems as 1).take (k + 1)
            = (globalItems as 1).take k ++ [it] := by
          rw [List.take_succ, List.getElem?_eq_getElem hlt]
          rw [hit.1]
          rfl
        cases it with
        | cmd n =>
          refine ⟨k + 1, by rw [hG2]; omega, ?_, ?_, ?_, ?_, ?_⟩
          · rw [hrun, hG2]
            simp only [sstep, hqq]
            exact hit.2
          · rw [hrun, hG2]
            simp only [sstep, hqq]
            rw [htake, cmdsOf_append, hd]
            rfl
          · rw [hrun, hG2]
            simp only [sstep, hqq]
            rw [htake, bumpsOf_append, hc]
            simp [bumpsOf]
          · rw [hrun]
            simp only [sstep, hqq]
            rw [hn, hns]
          · rw [hrun, hG2]
            simp only [sstep, hqq]
            exact hi
        | bump j =>
          refine ⟨k + 1, by rw [hG2]; omega, ?_, ?_, ?_, ?_, ?_⟩
          · rw [hrun, hG2]
            simp only [sstep, hqq]
            exact hit.2
          · rw [hrun, hG2]
            simp only [sstep, hqq]
            rw [htake, cmdsOf_append, hd]
            simp [cmdsOf]
          · rw [hrun, hG2]
            simp only [sstep, hqq]
            rw [htake, bumpsOf_append, hc]
            simp [bumpsOf]
          · rw [hrun]
            simp only [sstep, hqq]
            rw [hn, hns]
          · rw [hrun, hG2]
            simp only [sstep, hqq]
            exact hi

theorem counter_mono : ∀ (more : List SEvent) (s : SState),
    s.counter ≤ (List.foldl sstep s more).counter := by
  intro more
  induction more with
  | nil => intro s; simp
  | cons e r ih =>
    intro s
    rw [List.foldl_cons]
    refine le_trans ?_ (ih (sstep s e))
    cases e with
    | work n => simp [sstep]
    | newSync => simp [sstep]
    | exec =>
      cases hqq : s.queue with
      | nil => simp [sstep, hqq]
      | cons it rest => cases it <;> simp [sstep, hqq]

/-- C6 counterexample: a sync point with id 1 is created immediately after
enqueuing the single command 7; after one dispatch that command has
completed (the done log equals all work enqueued before the creation), yet
the sync point is not reached, because its own counter-bump command is
still pending.  So reached is not equivalent to all K commands having
completed, refuting the biconditional as stated. -/
theorem C6_reached_not_iff_completed :
    (srun [SEvent.work 7]).nextId = 1 ∧
    (srun [SEvent.work 7, SEvent.newSync, SEvent.exec]).doneCmds
      = worksOf [SEvent.work 7] ∧
    spoll 1 (srun [SEvent.work 7, SEvent.newSync, SEvent.exec]) = false := by
  decide

/-- C6 (amended): sync point ids form a strictly increasing, never reused
sequence; a sync point is reached exactly when the completion counter is at
least its id; for a sync point created after the events pre, it is reached
exactly when the coprocessor has consumed its counter-bump command, and
being reached implies that every work command enqueued before its creation
has completed; polling is monotone: once a poll returns true it never
returns false again.  (Reached is not equivalent to the completion of the
preceding commands alone: between the completion of the last preceding
command and the consumption of the bump command the sync point is
momentarily not yet reached.) -/
theorem C6_syncpoint_invariants :
    (∀ evs : List SEvent,
      List.Pairwise (· < ·) (srun evs).issued ∧ (srun evs).issued.Nodup) ∧
    (∀ (id : Nat) (evs : List SEvent),
      reached id (srun evs) ↔ id ≤ (srun evs).counter) ∧
    (∀ pre post : List SEvent,
      (reached ((srun pre).nextId) (srun (pre ++ SEvent.newSync :: post)) ↔
        SItem.bump ((srun pre).nextId)
          ∉ (srun (pre ++ SEvent.newSync :: post)).queue) ∧
      (reached ((srun pre).nextId) (srun (pre ++ SEvent.newSync :: post)) →
        ∃ r, (srun (pre ++ SEvent.newSync :: post)).doneCmds
          = worksOf pre ++ r)) ∧
    (∀ (id : Nat) (evs more : List SEvent),
      spoll id (srun evs) = true → spoll id (srun (evs ++ more)) = true) := by
  refine ⟨?_, ?_, ?_, ?_⟩
  · intro evs
    obtain ⟨k, hk, hq, hd, hc, hn, hi⟩ := srun_global_inv evs
    rw [hi, bumpsOf_globalItems]
    exact ⟨List.pairwise_lt_range' 1 (nsyncs evs), List.nodup_range' 1 (nsyncs evs)⟩
  · intro id evs
    exact Iff.rfl
  · intro pre post
    obtain ⟨kp, hkp0, hqp, hdp, hcp, hnp, hip⟩ := srun_global_inv pre
    set id := (srun pre).nextId with hlid
    have hid : id = 1 + nsyncs pre := by rw [hlid]; exact hnp
    set evs := pre ++ SEvent.newSync :: post with hevs
    have hsplit : globalItems evs 1
        = globalItems pre 1 ++ SItem.bump id :: globalItems post (id + 1) := by
      rw [hevs, globalItems_append pre (SEvent.newSync :: post) 1]
      congr 1
      rw [hid]
      rfl
    obtain ⟨k, hk, hq, hd, hc, hn, hi⟩ := srun_global_inv evs
    have hb1 : bumpsOf (globalItems pre 1) = List.range' 1 (nsyncs pre) :=
      bumpsOf_globalItems pre 1
    have hb2 : bumpsOf (globalItems post (id + 1))
        = List.range' (id + 1) (nsyncs post) := bumpsOf_globalItems post (id + 1)
    have hc1 : cmdsOf (globalItems pre 1) = worksOf pre := cmdsOf_globalItems pre 1
    by_cases hkp : k ≤ (globalItems pre 1).length
    · have htk : (globalItems evs 1).take k = (globalItems pre 1).take k := by
        rw [hsplit]
        exact List.take_append_of_le_length hkp
      have hcount : (srun evs).counter < id := by
        rw [hc, htk]
        have hle := bumpsOf_take_le k (globalItems pre 1)
        rw [hb1] at hle
        simp only [List.length_range'] at hle
        omega
      have hmem : SItem.bump id ∈ (srun evs).queue := by
        rw [hq, hsplit, List.drop_append_of_le_length hkp]
        exact List.mem_append_right _ (List.mem_cons_self _ _)
      constructor
      · exact iff_of_false (by simp only [reached]; omega) (not_not_intro hmem)
      · intro hr
        exact absurd hr (by simp only [reached]; omega)
    · push_neg at hkp
      obtain ⟨m, hm⟩ : ∃ m, k = (globalItems pre 1).length + (1 + m) :=
        ⟨k - (globalItems pre 1).length - 1, by omega⟩
      have htk : (globalItems evs 1).take k
          = globalItems pre 1 ++ SItem.bump id :: (globalItems post (id + 1)).take m := by
        rw [hsplit, hm, List.take_append, Nat.add_comm 1 m]
        rfl
      have hdk : (globalItems evs 1).drop k = (globalItems post (id + 1)).drop m := by
        rw [hsplit, hm, List.drop_append, Nat.add_comm 1 m]
        rfl
      have hreach : id ≤ (srun evs).counter := by
        rw [hc, htk, bumpsOf_append,
          show bumpsOf (SItem.bump id :: (globalItems post (id + 1)).take m)
            = id :: bumpsOf ((globalItems post (id + 1)).take m) by simp [bumpsOf],
          hb1]
        simp only [List.length_append, List.length_range', List.length_cons]
        omega
      have hnotmem : SItem.bump id ∉ (srun evs).queue := by
        rw [hq, hdk]
        intro hmm
        have hin : SItem.bump id ∈ globalItems post (id + 1) :=
          List.mem_of_mem_drop hmm
        rw [bump_mem_iff, hb2, List.mem_range'_1] at hin
        omega
      constructor
      · exact iff_of_true hreach hnotmem
      · intro _
        refine ⟨cmdsOf ((globalItems post (id + 1)).take m), ?_⟩
        rw [hd, htk, cmdsOf_append, hc1]
        congr 1
  · intro id evs more hp
    have hmono : (srun evs).counter ≤ (srun (evs ++ more)).counter := by
      show (srun evs).counter ≤ ((evs ++ more).foldl sstep sinit).counter
      rw [List.foldl_append]
      exact counter_mono more (srun evs)
    simp only [spoll, decide_eq_true_eq] at hp ⊢
    omega

/-- C6 witness: for the sync point created after enqueuing the single
command 7, once both the command and the bump are dispatched the sync point
is reached, all preceding work has completed, and a later poll still
returns true. -/
theorem C6_syncpoint_invariants_witness :
    reached ((srun [SEvent.work 7]).nextId)
      (srun ([SEvent.work 7] ++ SEvent.newSync :: [SEvent.exec, SEvent.exec])) ∧
    (∃ r, (srun ([SEvent.work 7] ++ SEvent.newSync :: [SEvent.exec, SEvent.exec])).doneCmds
        = worksOf [SEvent.work 7] ++ r) ∧
    spoll 1 (srun ([SEvent.work 7, SEvent.newSync, SEvent.exec, SEvent.exec]
        ++ [SEvent.exec])) = true :=
  ⟨by decide,
   (C6_syncpoint_invariants.2.2.1 [SEvent.work 7] [SEvent.exec, SEvent.exec]).2
     (by decide),
   C6_syncpoint_invariants.2.2.2 1
     [SEvent.work 7, SEvent.newSync, SEvent.exec, SEvent.exec] [SEvent.exec]
     (by decide)⟩

/-! ## Claims C3, C4, C7, C10: attachment and asynchronous detach -/

/-- Per the spec (section 6): a surface handle is an opaque descriptor
(base address, stride, pixel format, dimensions) supplied by the caller. -/
structure Surface where
  base : Nat
  stride : Nat
  format : Nat
  width : Nat
  height : Nat
deriving DecidableEq, Repr

/-- Modelled from the spec (section 4.6; rdp.c is not under src/): the
attachment state machine DETACHED, ATTACHED, DETACHING, DETACHED.
DETACHING carries the surface still being written, the optional callback
(function id and argument) and the sync point id whose completion ends the
detach. -/
inductive AttachState
  | DETACHED
  | ATTACHED (surf : Surface)
  | DETACHING (surf : Surface) (cb : Option (Nat × Nat)) (sp : Nat)
deriving DecidableEq, Repr

/-- An item in the rdp command stream: a drawing command, the
surface-binding commands of an attach, or the completion-sync command of an
asynchronous detach carrying the sync id and the callback. -/
inductive RItem
  | work (n : Nat)
  | bind (surf : Surface)
  | detachSync (sp : Nat) (cb : Option (Nat × Nat))
deriving DecidableEq, Repr

/-- Errors of the attachment layer; both are fatal precondition
violations. -/
inductive RdpError
  | alreadyAttached
  | notAttached
deriving DecidableEq, Repr

/-- Modelled from the spec: the joint state of the attachment tracker and
its command queue: attachment state, pending commands, consumed commands,
the completion counter, the next sync id, the log of fired callbacks and
the log of callbacks registered by detach calls (both as sync id, callback
pairs). -/
structure RdpState where
  attach : AttachState
  queue : List RItem
  done : List RItem
  counter : Nat
  nextSp : Nat
  fired : List (Nat × Option (Nat × Nat))
  issuedCb : List (Nat × Option (Nat × Nat))
deriving DecidableEq, Repr

/-- The (sync id, callback) pairs of the completion-sync commands of a
stream segment, in order. -/
def syncPairsOf (l : List RItem) : List (Nat × Option (Nat × Nat)) :=
  l.filterMap (fun it => match it with
    | .detachSync sp cb => some (sp, cb)
    | _ => none)

/-- Modelled from the spec and the rdp.h documentation of rdp_is_attached:
whether a surface is currently attached; a surface undergoing asynchronous
detach still counts as attached until the detach completes. -/
def rdp_is_attached (s : RdpState) : Bool :=
  match s.attach with
  | .DETACHED => false
  | .ATTACHED _ => true
  | .DETACHING _ _ _ => true

/-- From rdp.h line 178: the macro rdp_can_attach() expands to
(!rdp_is_attached()). -/
def rdp_can_attach (s : RdpState) : Bool := !rdp_is_attached s

/-- Modelled from the spec: rdp_attach fails with a fatal precondition
violation unless the state is DETACHED; on success it binds the surface and
enqueues the surface-binding commands. -/
def rdp_attach (surf : Surface) (s : RdpState) : Except RdpError RdpState :=
  if rdp_is_attached s then .error .alreadyAttached
  else .ok { s with attach := .ATTACHED surf,
                    queue := s.queue ++ [RItem.bind surf] }

/-- Modelled from the spec: rdp_detach_async enqueues a completion-sync
command carrying a fresh sync point and the callback, transitions to
DETACHING and returns immediately; it is a precondition violation when no
surface is attached. -/
def rdp_detach_async (cb : Option (Nat × Nat)) (s : RdpState) :
    Except RdpError RdpState :=
  match s.attach with
  | .ATTACHED surf =>
    .ok { s with attach := .DETACHING surf cb s.nextSp,
                 queue := s.queue ++ [RItem.detachSync s.nextSp cb],
                 nextSp := s.nextSp + 1,
                 issuedCb := s.issuedCb ++ [(s.nextSp, cb)] }
  | _ => .error .notAttached

/-- Modelled from the spec: one coprocessor dispatch.  Consuming a
completion-sync command advances the completion counter and fires its
callback; if it is the sync of the pending detach, the attachment state
becomes DETACHED. -/
def copStep (s : RdpState) : RdpState :=
  match s.queue with
  | [] => s
  | RItem.work n :: rest =>
    { s with queue := rest, done := s.done ++ [RItem.work n] }
  | RItem.bind surf :: rest =>
    { s with queue := rest, done := s.done ++ [RItem.bind surf] }
  | RItem.detachSync sp cb :: rest =>
    { s with queue := rest,
             done := s.done ++ [RItem.detachSync sp cb],
             counter := s.counter + 1,
             fired := s.fired ++ [(sp, cb)],
             attach := match s.attach with
                       | .DETACHING surf cb2 sp2 =>
                         if sp2 = sp then .DETACHED
                         else .DETACHING surf cb2 sp2
                       | a => a }

/-- Modelled from the spec: wait busy-polls the completion counter,
advancing the coprocessor until the sync id is reached; the fuel bounds the
polling loop and the queue length suffices whenever the sync is pending. -/
def waitAux : Nat → Nat → RdpState → RdpState
  | 0, _, s => s
  | f + 1, id, s => if id ≤ s.counter then s else waitAux f id (copStep s)

/-- Modelled from the spec: blocking wait on a sync point. -/
def rdp_wait (id : Nat) (s : RdpState) : RdpState :=
  waitAux s.queue.length id s

/-- Modelled from the spec and the rdp.h documentation: the blocking
rdp_detach is rdp_detach_async (with no user callback) followed by a
blocking wait on the sync point of the detach: it spins until the RDP has
finished writing to the surface. -/
def rdp_detach (s : RdpState) : Except RdpError RdpState :=
  match rdp_detach_async none s with
  | .ok s1 => .ok (rdp_wait s.nextSp s1)
  | .error e => .error e

/-- CPU and coprocessor events for the attachment layer: a failing CPU call
leaves the state unchanged (the C library treats it as a fatal assertion;
no state transition happens). -/
inductive REvent
  | attach (surf : Surface)
  | detachAsync (cb : Option (Nat × Nat))
  | enq (n : Nat)
  | step
deriving DecidableEq, Repr

/-- One event of the attachment layer protocol. -/
def rstep (s : RdpState) : REvent → RdpState
  | .attach surf =>
    match rdp_attach surf s with
    | .ok s2 => s2
    | .error _ => s
  | .detachAsync cb =>
    match rdp_detach_async cb s with
    | .ok s2 => s2
    | .error _ => s
  | .enq n => { s with queue := s.queue ++ [RItem.work n] }
  | .step => copStep s

/-- The initial attachment state: detached, empty queue, first sync id 1. -/
def rinit : RdpState := ⟨.DETACHED, [], [], 0, 1, [], []⟩

/-- Run a sequence of attachment-layer events from the initial state. -/
def rrun (evs : List REvent) : RdpState := evs.foldl rstep rinit

/-- The run invariant of the attachment layer: sync ids are allocated
sequentially; fired callbacks followed by pending syncs are exactly the
registered callbacks in registration order; the completion counter counts
the fired callbacks, which are exactly the consumed sync commands; and the
attachment state determines the pending syncs: none unless DETACHING, and
exactly the sync of the pending detach while DETACHING. -/
def RInv (s : RdpState) : Prop :=
  s.nextSp = s.counter + (syncPairsOf s.queue).length + 1 ∧
  s.fired ++ syncPairsOf s.queue = s.issuedCb ∧
  s.issuedCb.map Prod.fst
    = List.range' 1 (s.counter + (syncPairsOf s.queue).length) ∧
  s.fired.length = s.counter ∧
  s.fired = syncPairsOf s.done ∧
  (match s.attach with
   | .DETACHED => syncPairsOf s.queue = []
   | .ATTACHED _ => syncPairsOf s.queue = []
   | .DETACHING _ cb sp => syncPairsOf s.queue = [(sp, cb)] ∧ sp + 1 = s.nextSp)

theorem syncPairsOf_append (a b : List RItem) :
    syncPairsOf (a ++ b) = syncPairsOf a ++ syncPairsOf b := by
  simp [syncPairsOf]

theorem syncPairsOf_nil : syncPairsOf [] = [] := rfl

theorem syncPairsOf_work (n : Nat) (l : List RItem) :
    syncPairsOf (RItem.work n :: l) = syncPairsOf l := rfl

theorem syncPairsOf_bind (surf : Surface) (l : List RItem) :
    syncPairsOf (RItem.bind surf :: l) = syncPairsOf l := rfl

theorem syncPairsOf_sync (sp : Nat) (cb : Option (Nat × Nat)) (l : List RItem) :
    syncPairsOf (RItem.detachSync sp cb :: l) = (sp, cb) :: syncPairsOf l := rfl

theorem syncPair_mem_iff (sp : Nat) (cb : Option (Nat × Nat)) (l : List RItem) :
    RItem.detachSync sp cb ∈ l ↔ (sp, cb) ∈ syncPairsOf l := by
  simp only [syncPairsOf, List.mem_filterMap]
  constructor
  · intro h
    exact ⟨RItem.detachSync sp cb, h, rfl⟩
  · rintro ⟨a, ha, hf⟩
    cases a with
    | work n => simp at hf
    | bind surf => simp at hf
    | detachSync sp2 cb2 =>
      simp at hf
      rw [hf.1, hf.2] at ha
      exact ha

theorem is_attached_false_iff (s : RdpState) :
    rdp_is_attached s = false ↔ s.attach = AttachState.DETACHED := by
  cases h : s.attach <;> simp [rdp_is_attached, h]

theorem rinv_init : RInv rinit :=
  ⟨rfl, rfl, rfl, rfl, rfl, rfl⟩

theorem rinv_step (s : RdpState) (h : RInv s) (e : REvent) : RInv (rstep s e) := by
  obtain ⟨hA, hB, hC, hD, hE, hF⟩ := h
  cases e with
  | attach surf =>
    simp only [rstep, rdp_attach]
    by_cases hatt : rdp_is_attached s = true
    · rw [if_pos hatt]
      exact ⟨hA, hB, hC, hD, hE, hF⟩
    · rw [if_neg hatt]
      have hdet : s.attach = AttachState.DETACHED := by
        refine (is_attached_false_iff s).mp ?_
        revert hatt
        cases rdp_is_attached s <;> simp
      simp only [hdet] at hF
      rw [hF] at hA hB hC
      simp only [List.length_nil, List.append_nil, Nat.add_zero] at hA hB hC
      refine ⟨?_, ?_, ?_, hD, hE, ?_⟩
      · dsimp only
        rw [syncPairsOf_append, hF, List.nil_append, syncPairsOf_bind,
          syncPairsOf_nil]
        simp only [List.length_nil]
        omega
      · dsimp only
        rw [syncPairsOf_append, hF, List.nil_append, syncPairsOf_bind,
          syncPairsOf_nil, List.append_nil]
        exact hB
      · dsimp only
        rw [syncPairsOf_append, hF, List.nil_append, syncPairsOf_bind,
          syncPairsOf_nil]
        simp only [List.length_nil, Nat.add_zero]
        exact hC
      · dsimp only
        rw [syncPairsOf_append, hF, List.nil_append, syncPairsOf_bind,
          syncPairsOf_nil]
  | detachAsync cb =>
    simp only [rstep, rdp_detach_async]
    cases hatt : s.attach with
    | DETACHED => exact ⟨hA, hB, hC, hD, hE, by rw [hatt] at hF ⊢; exact hF⟩
    | DETACHING surf cb2 sp2 =>
      exact ⟨hA, hB, hC, hD, hE, by rw [hatt] at hF ⊢; exact hF⟩
    | ATTACHED surf =>
      simp only [hatt] at hF
      rw [hF] at hA hB hC
      simp only [List.length_nil, List.append_nil, Nat.add_zero] at hA hB hC
      refine ⟨?_, ?_, ?_, hD, hE, ?_⟩
      · dsimp only
        rw [syncPairsOf_append, hF, List.nil_append, syncPairsOf_sync,
          syncPairsOf_nil]
        simp only [List.length_cons, List.length_nil]
        omega
      · dsimp only
        rw [syncPairsOf_append, hF, List.nil_append, syncPairsOf_sync,
          syncPairsOf_nil, hB]
      · dsimp only
        rw [syncPairsOf_append, hF, List.nil_append, syncPairsOf_sync,
          syncPairsOf_nil, List.map_append, hC]
        simp only [List.length_cons, List.length_nil, List.map_cons,
          List.map_nil]
        rw [List.range'_1_concat]
        rw [show 1 + s.counter = s.nextSp by omega]
      · dsimp only
        rw [syncPairsOf_append, hF, List.nil_append, syncPairsOf_sync,
          syncPairsOf_nil]
        exact ⟨rfl, rfl⟩
  | enq n =>
    refine ⟨?_, ?_, ?_, hD, hE, ?_⟩
    · simp only [rstep]
      rw [syncPairsOf_append]
      simp only [syncPairsOf_work, syncPairsOf_nil, List.append_nil]
      exact hA
    · simp only [rstep]
      rw [syncPairsOf_append]
      simp only [syncPairsOf_work, syncPairsOf_nil, List.append_nil]
      exact hB
    · simp only [rstep]
      rw [syncPairsOf_append]
      simp only [syncPairsOf_work, syncPairsOf_nil, List.append_nil]
      exact hC
    · simp only [rstep]
      cases hatt : s.attach with
      | DETACHED =>
        simp only [hatt] at hF
        rw [syncPairsOf_append]
        simp only [syncPairsOf_work, syncPairsOf_nil, List.append_nil]
        exact hF
      | ATTACHED surf =>
        simp only [hatt] at hF
        rw [syncPairsOf_append]
        simp only [syncPairsOf_work, syncPairsOf_nil, List.append_nil]
        exact hF
      | DETACHING surf cb2 sp2 =>
        simp only [hatt] at hF
        rw [syncPairsOf_append]
        simp only [syncPairsOf_work, syncPairsOf_nil, List.append_nil]
        exact hF
  | step =>
    show RInv (copStep s)
    cases hq : s.queue with
    | nil =>
      simp only [copStep, hq]
      exact ⟨hA, hB, hC, hD, hE, hF⟩
    | cons it rest =>
      cases it with
      | work n =>
        have hpairs : syncPairsOf s.queue = syncPairsOf rest := by
          rw [hq, syncPairsOf_work]
        simp only [copStep, hq]
        rw [hpairs] at hA hB hC hF
        refine ⟨hA, hB, hC, hD, ?_, hF⟩
        rw [syncPairsOf_append]
        simp only [syncPairsOf_work, syncPairsOf_nil, List.append_nil]
        exact hE
      | bind surf0 =>
        have hpairs : syncPairsOf s.queue = syncPairsOf rest := by
          rw [hq, syncPairsOf_bind]
        simp only [copStep, hq]
        rw [hpairs] at hA hB hC hF
        refine ⟨hA, hB, hC, hD, ?_, hF⟩
        rw [syncPairsOf_append]
        simp only [syncPairsOf_bind, syncPairsOf_nil, List.append_nil]
        exact hE
      | detachSync sp cb =>
        have hpairs : syncPairsOf s.queue = (sp, cb) :: syncPairsOf rest := by
          rw [hq, syncPairsOf_sync]
        cases hatt : s.attach with
        | DETACHED =>
          simp only [hatt] at hF
          rw [hpairs] at hF
          cases hF
        | ATTACHED surf =>
          simp only [hatt] at hF
          rw [hpairs] at hF
          cases hF
        | DETACHING surf cb2 sp2 =>
          simp only [hatt] at hF
          obtain ⟨hF1, hF2⟩ := hF
          rw [hpairs] at hF1
          injection hF1 with h1 hrest
          injection h1 with hspEq hcbEq
          subst hspEq
          subst hcbEq
          have hstep2 : copStep s
              = { s with queue := rest,
                         done := s.done ++ [RItem.detachSync sp cb],
                         counter := s.counter + 1,
                         fired := s.fired ++ [(sp, cb)],
                         attach := AttachState.DETACHED } := by
            simp [copStep, hq, hatt]
          rw [hstep2]
          rw [hpairs, hrest] at hA hB hC
          simp only [List.length_cons, List.length_nil, List.append_nil] at hA hB hC
          refine ⟨?_, ?_, ?_, ?_, ?_, ?_⟩
          · dsimp only
            rw [hrest]
            simp only [List.length_nil]
            omega
          · dsimp only
            rw [hrest, List.append_nil]
            exact hB
          · dsimp only
            rw [hrest]
            simp only [List.length_nil, Nat.add_zero]
            rw [hC]
          · dsimp only
            simp [hD]
          · dsimp only
            rw [syncPairsOf_append, syncPairsOf_sync, syncPairsOf_nil, ← hE]
          · dsimp only
            exact hrest

theorem rinv_foldl : ∀ (evs : List REvent) (s : RdpState),
    RInv s → RInv (List.foldl rstep s evs) := by
  intro evs
  induction evs with
  | nil => intro s h; exact h
  | cons e r ih =>
    intro s h
    rw [List.foldl_cons]
    exact ih (rstep s e) (rinv_step s h e)

theorem rinv_rrun (evs : List REvent) : RInv (rrun evs) :=
  rinv_foldl evs rinit rinv_init

theorem fired_ids (s : RdpState) (h : RInv s) :
    s.fired.map Prod.fst = List.range' 1 s.counter := by
  obtain ⟨hA, hB, hC, hD, hE, hF⟩ := h
  have hmap := congrArg (List.map Prod.fst) hB
  rw [List.map_append, hC] at hmap
  have hsplit : List.range' 1 (s.counter + (syncPairsOf s.queue).length)
      = List.range' 1 s.counter
        ++ List.range' (1 + s.counter) (syncPairsOf s.queue).length := by
    rw [Nat.add_comm s.counter]
    exact (List.range'_append_1 1 s.counter (syncPairsOf s.queue).length).symm
  rw [hsplit] at hmap
  have hlen : (s.fired.map Prod.fst).length = (List.range' 1 s.counter).length := by
    simp [hD]
  exact (List.append_inj hmap hlen).1

theorem take_of_mem_unique {x : RItem} {A B : List RItem} (hA : x ∉ A) {j : Nat}
    (hmem : x ∈ (A ++ x :: B).take j) :
    ∃ t, (A ++ x :: B).take j = A ++ x :: t := by
  by_cases hj : j ≤ A.length
  · exfalso
    rw [List.take_append_of_le_length hj] at hmem
    exact hA (List.mem_of_mem_take hmem)
  · push_neg at hj
    obtain ⟨m, hm⟩ : ∃ m, j = A.length + (1 + m) := ⟨j - A.length - 1, by omega⟩
    refine ⟨B.take m, ?_⟩
    rw [hm, List.take_append, Nat.add_comm 1 m]
    rfl

/-- The stream lemma: along any continuation, the consumed-plus-pending
stream only grows at the tail, the consumed log is a prefix of it that
never shrinks, and every completion-sync enqueued later carries a sync id
at least the current next id. -/
theorem rstream : ∀ (more : List REvent) (s : RdpState),
    ∃ ext j,
      (List.foldl rstep s more).done ++ (List.foldl rstep s more).queue
        = s.done ++ s.queue ++ ext ∧
      (List.foldl rstep s more).done = (s.done ++ s.queue ++ ext).take j ∧
      s.done.length ≤ j ∧
      (∀ p ∈ syncPairsOf ext, s.nextSp ≤ p.1) := by
  intro more
  induction more with
  | nil =>
    intro s
    refine ⟨[], s.done.length, by simp, ?_, le_refl _, by simp [syncPairsOf_nil]⟩
    simp only [List.foldl_nil, List.append_nil]
    rw [List.take_append_of_le_length (by simp), List.take_length]
  | cons e r ih =>
    intro s
    rw [List.foldl_cons]
    obtain ⟨ext1, j1, h1, h2, h3, h4⟩ := ih (rstep s e)
    cases e with
    | attach surf =>
      by_cases hatt : rdp_is_attached s = true
      · have hid : rstep s (REvent.attach surf) = s := by
          simp [rstep, rdp_attach, hatt]
        rw [hid] at h1 h2 h3 h4 ⊢
        exact ⟨ext1, j1, h1, h2, h3, h4⟩
      · have hid : rstep s (REvent.attach surf)
            = { s with attach := AttachState.ATTACHED surf,
                       queue := s.queue ++ [RItem.bind surf] } := by
          simp [rstep, rdp_attach, hatt]
        rw [hid] at h1 h2 h3 h4 ⊢
        refine ⟨RItem.bind surf :: ext1, j1, ?_, ?_, h3, ?_⟩
        · rw [h1]; simp
        · rw [h2]; congr 1; simp
        · intro p hp
          rw [syncPairsOf_bind] at hp
          exact h4 p hp
    | detachAsync cb =>
      cases hatt : s.attach with
      | DETACHED =>
        have hid : rstep s (REvent.detachAsync cb) = s := by
          simp [rstep, rdp_detach_async, hatt]
        rw [hid] at h1 h2 h3 h4 ⊢
        exact ⟨ext1, j1, h1, h2, h3, h4⟩
      | DETACHING surf cb2 sp2 =>
        have hid : rstep s (REvent.detachAsync cb) = s := by
          simp [rstep, rdp_detach_async, hatt]
        rw [hid] at h1 h2 h3 h4 ⊢
        exact ⟨ext1, j1, h1, h2, h3, h4⟩
      | ATTACHED surf =>
        have hid : rstep s (REvent.detachAsync cb)
            = { s with attach := AttachState.DETACHING surf cb s.nextSp,
                       queue := s.queue ++ [RItem.detachSync s.nextSp cb],
                       nextSp := s.nextSp + 1,
                       issuedCb := s.issuedCb ++ [(s.nextSp, cb)] } := by
          simp [rstep, rdp_detach_async, hatt]
        rw [hid] at h1 h2 h3 h4 ⊢
        refine ⟨RItem.detachSync s.nextSp cb :: ext1, j1, ?_, ?_, h3, ?_⟩
        · rw [h1]; simp
        · rw [h2]; congr 1; simp
        · intro p hp
          rw [syncPairsOf_sync] at hp
          rcases List.mem_cons.mp hp with hp1 | hp1
          · rw [hp1]
          · have hb := h4 p hp1
            dsimp only at hb
            omega
    | enq n =>
      have hid : rstep s (REvent.enq n)
          = { s with queue := s.queue ++ [RItem.work n] } := rfl
      rw [hid] at h1 h2 h3 h4 ⊢
      refine ⟨RItem.work n :: ext1, j1, ?_, ?_, h3, ?_⟩
      · rw [h1]; simp
      · rw [h2]; congr 1; simp
      · intro p hp
        rw [syncPairsOf_work] at hp
        exact h4 p hp
    | step =>
      have hid : rstep s REvent.step = copStep s := rfl
      rw [hid] at h1 h2 h3 h4 ⊢
      cases hq : s.queue with
      | nil =>
        have hid2 : copStep s = s := by simp [copStep, hq]
        rw [hid2] at h1 h2 h3 h4 ⊢
        rw [hq] at h1 h2
        exact ⟨ext1, j1, h1, h2, h3, h4⟩
      | cons it rest =>
        have hdone : (copStep s).done = s.done ++ [it]
            ∧ (copStep s).queue = rest ∧ (copStep s).nextSp = s.nextSp := by
          cases it <;> simp [copStep, hq]
        refine ⟨ext1, j1, ?_, ?_, ?_, ?_⟩
        · rw [h1, hdone.1, hdone.2.1]
          simp
        · rw [h2, hdone.1, hdone.2.1]
          congr 1
          simp
        · have hl := h3
          rw [hdone.1] at hl
          simp at hl
          omega
        · intro p hp
          have hb := h4 p hp
          rw [hdone.2.2] at hb
          exact hb

theorem waitAux_drain : ∀ (items : List RItem),
    syncPairsOf items = [] →
    ∀ (surf : Surface) (cb : Option (Nat × Nat)) (done : List RItem)
      (c nsp : Nat) (fired issued : List (Nat × Option (Nat × Nat))),
    waitAux (items.length + 1) (c + 1)
      (RdpState.mk (AttachState.DETACHING surf cb (c + 1))
        (items ++ [RItem.detachSync (c + 1) cb]) done c nsp fired issued)
      = RdpState.mk AttachState.DETACHED []
          (done ++ items ++ [RItem.detachSync (c + 1) cb]) (c + 1) nsp
          (fired ++ [(c + 1, cb)]) issued := by
  intro items
  induction items with
  | nil =>
    intro hs surf cb done c nsp fired issued
    show waitAux (0 + 1) (c + 1) _ = _
    rw [waitAux, if_neg (by dsimp only; omega)]
    simp [waitAux, copStep]
  | cons it rest ih =>
    intro hs surf cb done c nsp fired issued
    cases it with
    | detachSync sp2 cb2 =>
      rw [syncPairsOf_sync] at hs
      cases hs
    | work n =>
      rw [syncPairsOf_work] at hs
      show waitAux (rest.length + 1 + 1) (c + 1) _ = _
      rw [waitAux, if_neg (by dsimp only; omega)]
      have hcop : copStep (RdpState.mk (AttachState.DETACHING surf cb (c + 1))
          ((RItem.work n :: rest) ++ [RItem.detachSync (c + 1) cb])
          done c nsp fired issued)
          = RdpState.mk (AttachState.DETACHING surf cb (c + 1))
            (rest ++ [RItem.detachSync (c + 1) cb]) (done ++ [RItem.work n])
            c nsp fired issued := by
        simp [copStep]
      rw [hcop, ih hs surf cb (done ++ [RItem.work n]) c nsp fired issued]
      simp
    | bind surf2 =>
      rw [syncPairsOf_bind] at hs
      show waitAux (rest.length + 1 + 1) (c + 1) _ = _
      rw [waitAux, if_neg (by dsimp only; omega)]
      have hcop : copStep (RdpState.mk (AttachState.DETACHING surf cb (c + 1))
          ((RItem.bind surf2 :: rest) ++ [RItem.detachSync (c + 1) cb])
          done c nsp fired issued)
          = RdpState.mk (AttachState.DETACHING surf cb (c + 1))
            (rest ++ [RItem.detachSync (c + 1) cb]) (done ++ [RItem.bind surf2])
            c nsp fired issued := by
        simp [copStep]
      rw [hcop, ih hs surf cb (done ++ [RItem.bind surf2]) c nsp fired issued]
      simp

/-! ## Claim C4 -/

/-- C4: the blocking rdp_detach is observationally rdp_detach_async followed
by a blocking wait on the sync point of the detach: it performs the same
single enqueue (the completion-sync command), and it returns only once the
RDP has finished writing to the surface: every command pending at the call,
and the detach sync itself, has been consumed, the sync point is reached,
the callback log has grown exactly by this detach, and the final state is
DETACHED with an empty queue. -/
theorem C4_blocking_detach (s : RdpState) (surf : Surface)
    (hA : s.attach = AttachState.ATTACHED surf)
    (hS : syncPairsOf s.queue = [])
    (hN : s.nextSp = s.counter + 1) :
    ∃ s1, rdp_detach_async none s = .ok s1 ∧
      rdp_detach s = .ok (rdp_wait s.nextSp s1) ∧
      s1.queue = s.queue ++ [RItem.detachSync s.nextSp none] ∧
      (rdp_wait s.nextSp s1).attach = AttachState.DETACHED ∧
      (rdp_wait s.nextSp s1).queue = [] ∧
      (rdp_wait s.nextSp s1).done
        = s.done ++ s.queue ++ [RItem.detachSync s.nextSp none] ∧
      s.nextSp ≤ (rdp_wait s.nextSp s1).counter ∧
      (rdp_wait s.nextSp s1).fired = s.fired ++ [(s.nextSp, none)] := by
  obtain ⟨att, q, d, c, nsp, f, iss⟩ := s
  dsimp only at hA hS hN ⊢
  subst hA
  subst hN
  have hw : rdp_wait (c + 1)
      (RdpState.mk (AttachState.DETACHING surf none (c + 1))
        (q ++ [RItem.detachSync (c + 1) none]) d c (c + 1 + 1) f
        (iss ++ [(c + 1, none)]))
      = RdpState.mk AttachState.DETACHED []
          (d ++ q ++ [RItem.detachSync (c + 1) none]) (c + 1) (c + 1 + 1)
          (f ++ [(c + 1, none)]) (iss ++ [(c + 1, none)]) := by
    have hlen : (q ++ [RItem.detachSync (c + 1) none]).length = q.length + 1 := by
      simp
    rw [rdp_wait]
    dsimp only
    rw [hlen]
    exact waitAux_drain q hS surf none d c (c + 1 + 1) f (iss ++ [(c + 1, none)])
  refine ⟨_, rfl, rfl, rfl, ?_, ?_, ?_, ?_, ?_⟩ <;> rw [hw]

/-- C4 witness: a concrete attached state with one pending draw command,
fully drained by the blocking detach. -/
theorem C4_blocking_detach_witness :
    ∃ s1, rdp_detach_async none
        (RdpState.mk (AttachState.ATTACHED (Surface.mk 1 2 3 4 5))
          [RItem.work 3] [] 0 1 [] []) = .ok s1 ∧
      rdp_detach (RdpState.mk (AttachState.ATTACHED (Surface.mk 1 2 3 4 5))
          [RItem.work 3] [] 0 1 [] []) = .ok (rdp_wait 1 s1) ∧
      s1.queue = [RItem.work 3] ++ [RItem.detachSync 1 none] ∧
      (rdp_wait 1 s1).attach = AttachState.DETACHED ∧
      (rdp_wait 1 s1).queue = [] ∧
      (rdp_wait 1 s1).done
        = [] ++ [RItem.work 3] ++ [RItem.detachSync 1 none] ∧
      1 ≤ (rdp_wait 1 s1).counter ∧
      (rdp_wait 1 s1).fired = [] ++ [(1, none)] :=
  C4_blocking_detach
    (RdpState.mk (AttachState.ATTACHED (Surface.mk 1 2 3 4 5))
      [RItem.work 3] [] 0 1 [] [])
    (Surface.mk 1 2 3 4 5) rfl rfl rfl

/-! ## Claim C3 -/

/-- The surfaces the rasterizer is bound to in a given attachment state. -/
def attachedSurfaces : AttachState → List Surface
  | .DETACHED => []
  | .ATTACHED surf => [surf]
  | .DETACHING surf _ _ => [surf]

/-- C3: rdp_attach succeeds exactly in the DETACHED state; attaching while
a surface is attached is the fatal precondition violation; after a
successful rdp_detach_async, attaching any surface (even a different one)
is rejected, because the state is DETACHING, not DETACHED, until the detach
completes; and the rasterizer is bound to at most one surface at a time. -/
theorem C3_attach_only_when_detached :
    (∀ (s : RdpState) (surf : Surface),
      (∃ s2, rdp_attach surf s = .ok s2) ↔ s.attach = AttachState.DETACHED) ∧
    (∀ (s : RdpState) (surf : Surface), s.attach ≠ AttachState.DETACHED →
      rdp_attach surf s = .error RdpError.alreadyAttached) ∧
    (∀ (s s1 : RdpState) (cb : Option (Nat × Nat)) (surf2 : Surface),
      rdp_detach_async cb s = .ok s1 →
      rdp_attach surf2 s1 = .error RdpError.alreadyAttached) ∧
    (∀ s : RdpState, (attachedSurfaces s.attach).length ≤ 1) := by
  refine ⟨?_, ?_, ?_, ?_⟩
  · intro s surf
    rw [rdp_attach]
    cases h : s.attach <;>
      simp [rdp_is_attached, h]
  · intro s surf hne
    rw [rdp_attach]
    cases h : s.attach with
    | DETACHED => exact absurd h hne
    | ATTACHED surf0 => simp [rdp_is_attached, h]
    | DETACHING surf0 cb sp => simp [rdp_is_attached, h]
  · intro s s1 cb surf2 hok
    rw [rdp_detach_async] at hok
    cases h : s.attach with
    | DETACHED => rw [h] at hok; cases hok
    | DETACHING surf0 cb0 sp0 => rw [h] at hok; cases hok
    | ATTACHED surf0 =>
      rw [h] at hok
      injection hok with hs1
      rw [rdp_attach, ← hs1]
      simp [rdp_is_attached]
  · intro s
    cases h : s.attach <;> simp [attachedSurfaces]

/-- C3 witness: from a concrete attached state, an asynchronous detach
succeeds and a subsequent attach of a different surface is rejected. -/
theorem C3_attach_only_when_detached_witness :
    rdp_detach_async none
        (RdpState.mk (AttachState.ATTACHED (Surface.mk 1 2 3 4 5)) [] [] 0 1 [] [])
      = .ok (RdpState.mk
          (AttachState.DETACHING (Surface.mk 1 2 3 4 5) none 1)
          [RItem.detachSync 1 none] [] 0 2 [] [(1, none)]) ∧
    rdp_attach (Surface.mk 9 9 9 9 9)
        (RdpState.mk (AttachState.DETACHING (Surface.mk 1 2 3 4 5) none 1)
          [RItem.detachSync 1 none] [] 0 2 [] [(1, none)])
      = .error RdpError.alreadyAttached :=
  ⟨rfl, C3_attach_only_when_detached.2.2.1
    (RdpState.mk (AttachState.ATTACHED (Surface.mk 1 2 3 4 5)) [] [] 0 1 [] [])
    (RdpState.mk (AttachState.DETACHING (Surface.mk 1 2 3 4 5) none 1)
      [RItem.detachSync 1 none] [] 0 2 [] [(1, none)])
    none (Surface.mk 9 9 9 9 9) rfl⟩

/-! ## Claim C10 -/

/-- C10: rdp_can_attach is exactly the boolean negation of rdp_is_attached
(the macro expansion in rdp.h line 178); it is true exactly when no surface
is attached (state DETACHED), and it stays false during the whole DETACHING
phase of an asynchronous detach. -/
theorem C10_can_attach_negation (s : RdpState) :
    (rdp_can_attach s = !rdp_is_attached s) ∧
    (rdp_can_attach s = true ↔ s.attach = AttachState.DETACHED) ∧
    (∀ surf cb sp, s.attach = AttachState.DETACHING surf cb sp →
      rdp_can_attach s = false) := by
  refine ⟨rfl, ?_, ?_⟩
  · cases h : s.attach <;> simp [rdp_can_attach, rdp_is_attached, h]
  · intro surf cb sp h
    simp [rdp_can_attach, rdp_is_attached, h]

/-- C10 witness: in a concrete DETACHING state, rdp_can_attach is false. -/
theorem C10_can_attach_negation_witness :
    rdp_can_attach (RdpState.mk
      (AttachState.DETACHING (Surface.mk 1 2 3 4 5) none 1)
      [RItem.detachSync 1 none] [] 0 2 [] [(1, none)]) = false :=
  (C10_can_attach_negation _).2.2 (Surface.mk 1 2 3 4 5) none 1 rfl

/-! ## Claim C7 -/

theorem rrun_append_cons (pre post : List REvent) (e : REvent) :
    rrun (pre ++ e :: post) = List.foldl rstep (rstep (rrun pre) e) post := by
  show (pre ++ e :: post).foldl rstep rinit = _
  rw [show pre ++ e :: post = (pre ++ [e]) ++ post by simp]
  rw [List.foldl_append, List.foldl_append]
  rfl

/-- C7: the detach callback contract.  The fired-callback log always is an
initial segment of the registered-callback log with pairwise distinct sync
ids, so each rdp_detach_async callback fires at most once and with exactly
the registered argument; when the callback of a detach has fired, every
command that was pending when the detach was issued has been consumed
before the detach sync (the callback never fires before all previously
enqueued work completes); and the dispatch that fires the callback of the
pending detach moves the attachment state to DETACHED. -/
theorem C7_detach_callback_contract :
    (∀ evs : List REvent,
      ((rrun evs).fired.map Prod.fst).Nodup ∧
      (∃ rest, (rrun evs).fired ++ rest = (rrun evs).issuedCb)) ∧
    (∀ (pre post : List REvent) (cb : Option (Nat × Nat)) (surf : Surface),
      (rrun pre).attach = AttachState.ATTACHED surf →
      ((rrun pre).nextSp, cb)
        ∈ (rrun (pre ++ REvent.detachAsync cb :: post)).fired →
      ∃ rest, (rrun (pre ++ REvent.detachAsync cb :: post)).done
        = (rrun pre).done ++ (rrun pre).queue
          ++ RItem.detachSync ((rrun pre).nextSp) cb :: rest) ∧
    (∀ (evs : List REvent) (surf : Surface) (cb : Option (Nat × Nat)) (sp : Nat),
      (rrun evs).attach = AttachState.DETACHING surf cb sp →
      (copStep (rrun evs)).fired ≠ (rrun evs).fired →
      (copStep (rrun evs)).attach = AttachState.DETACHED ∧
      (copStep (rrun evs)).fired = (rrun evs).fired ++ [(sp, cb)]) := by
  refine ⟨?_, ?_, ?_⟩
  · intro evs
    have hfid := fired_ids (rrun evs) (rinv_rrun evs)
    obtain ⟨hA, hB, hC, hD, hE, hF⟩ := rinv_rrun evs
    constructor
    · rw [hfid]
      exact List.nodup_range' 1 _
    · exact ⟨syncPairsOf (rrun evs).queue, hB⟩
  · intro pre post cb surf hatt hmem
    have hfid := fired_ids (rrun pre) (rinv_rrun pre)
    obtain ⟨hpA, hpB, hpC, hpD, hpE, hpF⟩ := rinv_rrun pre
    simp only [hatt] at hpF
    rw [hpF] at hpA
    simp only [List.length_nil, Nat.add_zero] at hpA
    set sp := (rrun pre).nextSp with hspdef
    have hs0 : rstep (rrun pre) (REvent.detachAsync cb)
        = { rrun pre with
              attach := AttachState.DETACHING surf cb sp,
              queue := (rrun pre).queue ++ [RItem.detachSync sp cb],
              nextSp := sp + 1,
              issuedCb := (rrun pre).issuedCb ++ [(sp, cb)] } := by
      simp [rstep, rdp_detach_async, hatt]
    have hrun2 : rrun (pre ++ REvent.detachAsync cb :: post)
        = List.foldl rstep (rstep (rrun pre) (REvent.detachAsync cb)) post :=
      rrun_append_cons pre post _
    have hinvf := rinv_rrun (pre ++ REvent.detachAsync cb :: post)
    rw [hrun2] at hinvf hmem ⊢
    obtain ⟨ext, j, h1, h2, h3, h4⟩ :=
      rstream post (rstep (rrun pre) (REvent.detachAsync cb))
    rw [hs0] at h1 h2 h3 h4 hinvf hmem ⊢
    dsimp only at h1 h2 h3 h4
    obtain ⟨hfA, hfB, hfC, hfD, hfE, hfF⟩ := hinvf
    rw [hfE] at hmem
    have hdone_mem := (syncPair_mem_iff sp cb _).mpr hmem
    have hnotA : RItem.detachSync sp cb
        ∉ (rrun pre).done ++ (rrun pre).queue := by
      intro hmm
      rcases List.mem_append.mp hmm with hin | hin
      · have hpair := (syncPair_mem_iff sp cb _).mp hin
        rw [← hpE] at hpair
        have hid : sp ∈ (rrun pre).fired.map Prod.fst :=
          List.mem_map.mpr ⟨(sp, cb), hpair, rfl⟩
        rw [hfid, List.mem_range'_1] at hid
        omega
      · have hpair := (syncPair_mem_iff sp cb _).mp hin
        rw [hpF] at hpair
        cases hpair
    have hbig : (rrun pre).done ++ ((rrun pre).queue ++ [RItem.detachSync sp cb]) ++ ext
        = ((rrun pre).done ++ (rrun pre).queue) ++ RItem.detachSync sp cb :: ext := by
      simp
    rw [hbig] at h2
    rw [h2] at hdone_mem ⊢
    obtain ⟨t, ht⟩ := take_of_mem_unique hnotA hdone_mem
    rw [ht]
    exact ⟨t, by simp⟩
  · intro evs surf cb sp hatt hne
    obtain ⟨hA, hB, hC, hD, hE, hF⟩ := rinv_rrun evs
    simp only [hatt] at hF
    obtain ⟨hF1, hF2⟩ := hF
    cases hq : (rrun evs).queue with
    | nil =>
      rw [hq, syncPairsOf_nil] at hF1
      cases hF1
    | cons it rest =>
      cases it with
      | work n =>
        exact absurd (by simp [copStep, hq]) hne
      | bind surf2 =>
        exact absurd (by simp [copStep, hq]) hne
      | detachSync sp2 cb2 =>
        rw [hq, syncPairsOf_sync] at hF1
        injection hF1 with h1 hrest
        injection h1 with hsp hcb
        subst hsp
        subst hcb
        constructor
        · simp [copStep, hq, hatt]
        · simp [copStep, hq]

/-- C7 witness: a concrete run in which the callback of the single detach
fires with its registered argument after the pending surface-binding
command completed, and the dispatch that fires the pending detach sync
moves the state to DETACHED. -/
theorem C7_detach_callback_contract_witness :
    (∃ rest, (rrun ([REvent.attach (Surface.mk 1 2 3 4 5)]
        ++ REvent.detachAsync (some (4, 2)) :: [REvent.step, REvent.step])).done
      = (rrun [REvent.attach (Surface.mk 1 2 3 4 5)]).done
        ++ (rrun [REvent.attach (Surface.mk 1 2 3 4 5)]).queue
        ++ RItem.detachSync
            ((rrun [REvent.attach (Surface.mk 1 2 3 4 5)]).nextSp)
            (some (4, 2)) :: rest) ∧
    ((copStep (rrun [REvent.attach (Surface.mk 1 2 3 4 5),
        REvent.detachAsync none, REvent.step])).attach
      = AttachState.DETACHED) :=
  ⟨C7_detach_callback_contract.2.1
    [REvent.attach (Surface.mk 1 2 3 4 5)] [REvent.step, REvent.step]
    (some (4, 2)) (Surface.mk 1 2 3 4 5) rfl (by decide),
   (C7_detach_callback_contract.2.2
    [REvent.attach (Surface.mk 1 2 3 4 5), REvent.detachAsync none, REvent.step]
    (Surface.mk 1 2 3 4 5) none 1 rfl (by decide)).1⟩

end LibdragonRdp
